import Mathlib

set_option maxHeartbeats 1000000

/-!
Shallow embedding of `src/MoronRelationExpression.js`: the relation-expression
DSL parser (`MoronRelationExpressionParser`) and the expression query
operations (`isRecursive`, `isAllRecursive`, `relation`, `isSubExpression`)
of `MoronRelationExpression`, together with theorems settling the frozen
claims about this code.
-/

/-- Tree node of a relation expression, mirroring the source constructor
`MoronRelationExpressionNode(name)`: a relation `name` and the ordered list
of `children` nodes. -/
inductive MoronRelationExpressionNode : Type where
  | mk (name : String) (children : List MoronRelationExpressionNode)

/-- Field accessor for `MoronRelationExpressionNode.name`. -/
def MoronRelationExpressionNode.name : MoronRelationExpressionNode → String
  | .mk n _ => n

/-- Field accessor for `MoronRelationExpressionNode.children`. -/
def MoronRelationExpressionNode.children :
    MoronRelationExpressionNode → List MoronRelationExpressionNode
  | .mk _ c => c

mutual

/-- Size of one node: itself plus all descendants.  Used as the termination
measure of the sub-expression containment recursion. -/
def nodeSize : MoronRelationExpressionNode → Nat
  | .mk _ children => 1 + forestSize children

/-- Total size of a forest of nodes. -/
def forestSize : List MoronRelationExpressionNode → Nat
  | [] => 0
  | n :: ns => nodeSize n + forestSize ns

end

/-- A parsed relation expression: the ordered list of root `nodes`,
mirroring the source constructor `MoronRelationExpression(nodes)`. -/
structure MoronRelationExpression : Type where
  nodes : List MoronRelationExpressionNode

/-- Scan of the root nodes used by `MoronRelationExpression.prototype.isRecursive`:
the loop returns, at the first root whose name equals `relationName`, whether
that root has exactly one child named `"^"`; it returns false when no root
matches. -/
def isRecursiveSearch : List MoronRelationExpressionNode → String → Bool
  | [], _ => false
  | node :: rest, relationName =>
    if node.name == relationName then
      match node.children with
      | [c] => c.name == "^"
      | _ => false
    else isRecursiveSearch rest relationName

/-- Embedding of `MoronRelationExpression.prototype.isRecursive`. -/
def MoronRelationExpression.isRecursive
    (e : MoronRelationExpression) (relationName : String) : Bool :=
  isRecursiveSearch e.nodes relationName

/-- Embedding of `MoronRelationExpression.prototype.isAllRecursive`:
`this.nodes.length === 1 && this.nodes[0].name === '*'`. -/
def MoronRelationExpression.isAllRecursive (e : MoronRelationExpression) : Bool :=
  match e.nodes with
  | [node] => node.name == "*"
  | _ => false

/-- Loop body of `MoronRelationExpression.prototype.relation`: scan the root
nodes in order, skip roots whose name differs, and at the first root named
`relationName` return a one-root expression around that node when the whole
expression `isRecursive` at that name, else an expression around the node's
children.  `none` models the `null` returned after the loop. -/
def relationSearch (e : MoronRelationExpression) (relationName : String) :
    List MoronRelationExpressionNode → Option MoronRelationExpression
  | [] => none
  | node :: rest =>
    if node.name == relationName then
      if e.isRecursive node.name then some ⟨[node]⟩ else some ⟨node.children⟩
    else relationSearch e relationName rest

/-- Embedding of `MoronRelationExpression.prototype.relation`. -/
def MoronRelationExpression.relation
    (e : MoronRelationExpression) (relationName : String) :
    Option MoronRelationExpression :=
  if e.isAllRecursive then some e else relationSearch e relationName e.nodes

example : MoronRelationExpression.isRecursive
    ⟨[.mk "a" [.mk "^" []]]⟩ "a" = true := rfl

example : MoronRelationExpression.isRecursive
    ⟨[.mk "a" [.mk "b" []]]⟩ "a" = false := rfl

example : MoronRelationExpression.relation ⟨[.mk "*" []]⟩ "x" =
    some ⟨[.mk "*" []]⟩ := rfl

example : MoronRelationExpression.relation ⟨[.mk "a" [.mk "b" []]]⟩ "a" =
    some ⟨[.mk "b" []]⟩ := rfl

example : MoronRelationExpression.relation ⟨[.mk "a" [.mk "b" []]]⟩ "z" =
    none := rfl

/-- Unfolding of `nodeSize` through the `children` accessor. -/
def nodeSize_eq_children : ∀ m : MoronRelationExpressionNode,
    nodeSize m = 1 + forestSize m.children := by
  intro m
  cases m with
  | mk n c => simp [nodeSize, MoronRelationExpressionNode.children]

/-- Every member of a forest contributes at most the whole forest size. -/
def forestSize_mem_le : ∀ (m : MoronRelationExpressionNode)
    (l : List MoronRelationExpressionNode), m ∈ l → nodeSize m ≤ forestSize l := by
  intro m l hm
  induction l with
  | nil => cases hm
  | cons x xs ih =>
    rcases List.mem_cons.mp hm with h | h
    · subst h
      simp [forestSize]
    · have := ih h
      simp [forestSize]
      omega

/-- Characterisation of a successful scan of `relationSearch`: the result is
built from a root node of the scanned list whose name matches, by the
recursion-marker rule of the source loop. -/
def relationSearch_some_cases :
    ∀ (e : MoronRelationExpression) (n : String)
      (l : List MoronRelationExpressionNode) (e' : MoronRelationExpression),
      relationSearch e n l = some e' →
      ∃ m, m ∈ l ∧ m.name = n ∧
        ((e.isRecursive n = true ∧ e' = ⟨[m]⟩) ∨
         (e.isRecursive n = false ∧ e' = ⟨m.children⟩)) := by
  intro e n l
  induction l with
  | nil => intro e' h; simp [relationSearch] at h
  | cons x xs ih =>
    intro e' h
    rw [relationSearch] at h
    by_cases hx : x.name = n
    · rw [if_pos (by simpa using hx)] at h
      subst hx
      by_cases hrec : e.isRecursive x.name = true
      · rw [if_pos hrec] at h
        exact ⟨x, List.mem_cons_self _ _, rfl,
          Or.inl ⟨hrec, by exact (Option.some_inj.mp h).symm⟩⟩
      · rw [if_neg hrec] at h
        exact ⟨x, List.mem_cons_self _ _, rfl,
          Or.inr ⟨by simpa using hrec, (Option.some_inj.mp h).symm⟩⟩
    · rw [if_neg (by simpa using hx)] at h
      obtain ⟨m, hm, hrest⟩ := ih e' h
      exact ⟨m, List.mem_cons_of_mem _ hm, hrest⟩

/-- A scan of `relationSearch` over a list that contains a node with the
searched name always succeeds. -/
def relationSearch_isSome :
    ∀ (e : MoronRelationExpression) (n : String)
      (l : List MoronRelationExpressionNode) (m : MoronRelationExpressionNode),
      m ∈ l → m.name = n → ∃ e', relationSearch e n l = some e' := by
  intro e n l
  induction l with
  | nil => intro m hm; cases hm
  | cons x xs ih =>
    intro m hm hname
    rw [relationSearch]
    by_cases hx : x.name = n
    · rw [if_pos (by simpa using hx)]
      by_cases hrec : e.isRecursive x.name = true
      · rw [if_pos hrec]; exact ⟨_, rfl⟩
      · rw [if_neg hrec]; exact ⟨_, rfl⟩
    · rw [if_neg (by simpa using hx)]
      rcases List.mem_cons.mp hm with h | h
      · subst h; exact absurd hname hx
      · exact ih m h hname

/-- A successful `relation` never grows the forest. -/
def relation_size_le :
    ∀ (e : MoronRelationExpression) (n : String) (e' : MoronRelationExpression),
      e.relation n = some e' → forestSize e'.nodes ≤ forestSize e.nodes := by
  intro e n e' h
  rw [MoronRelationExpression.relation] at h
  by_cases hall : e.isAllRecursive = true
  · rw [if_pos hall] at h
    rw [← Option.some_inj.mp h]
  · rw [if_neg hall] at h
    obtain ⟨m, hm, _, hcases⟩ := relationSearch_some_cases e n e.nodes e' h
    have hsz := forestSize_mem_le m e.nodes hm
    rcases hcases with ⟨_, rfl⟩ | ⟨_, rfl⟩
    · simp [forestSize]
      omega
    · have := nodeSize_eq_children m
      simp
      omega

/-- A successful `relation` at a name at which the expression is not
recursive (and is not the all-recursive wildcard) strictly shrinks the
forest. -/
def relation_size_lt :
    ∀ (e : MoronRelationExpression) (n : String) (e' : MoronRelationExpression),
      e.isAllRecursive = false → e.isRecursive n = false →
      e.relation n = some e' → forestSize e'.nodes < forestSize e.nodes := by
  intro e n e' hall hrec h
  rw [MoronRelationExpression.relation, if_neg (by simp [hall])] at h
  obtain ⟨m, hm, _, hcases⟩ := relationSearch_some_cases e n e.nodes e' h
  have hsz := forestSize_mem_le m e.nodes hm
  have hch := nodeSize_eq_children m
  rcases hcases with ⟨hr, rfl⟩ | ⟨_, rfl⟩
  · rw [hr] at hrec; cases hrec
  · simp
    omega

/-- On a non-all-recursive expression, `relation` succeeds at the name of any
of its root nodes. -/
def relation_isSome_of_mem :
    ∀ (e : MoronRelationExpression) (m : MoronRelationExpressionNode),
      e.isAllRecursive = false → m ∈ e.nodes →
      ∃ e', e.relation m.name = some e' := by
  intro e m hall hm
  rw [MoronRelationExpression.relation, if_neg (by simp [hall])]
  exact relationSearch_isSome e m.name e.nodes m hm rfl

mutual

/-- Embedding of `MoronRelationExpression.prototype.isSubExpression`, taking
an argument that is already a parsed `MoronRelationExpression` (the source
first parses a string argument through the same parser; the claims quantify
over parsed expressions).  If `expr.isAllRecursive()` the result is
`this.isAllRecursive()`; otherwise the root nodes of `expr` are scanned by
`subExpressionLoop`. -/
def MoronRelationExpression.isSubExpression
    (a b : MoronRelationExpression) : Bool :=
  if hall : b.isAllRecursive = true then a.isAllRecursive
  else subExpressionLoop a b b.nodes (by simpa using hall) (fun x hx => hx)
termination_by (forestSize a.nodes + forestSize b.nodes, b.nodes.length + 2)
decreasing_by
  apply Prod.Lex.right
  omega

/-- The root-node loop of `isSubExpression` over the roots of the argument
expression `b` (`expr` in the source): at each root name `n`, the
short-circuit `expr.isRecursive(n) && (this.isAllRecursive() ||
this.isRecursive(n))` returns true for the whole call; otherwise
`this.relation(n)` must exist and itself contain `expr.relation(n)`, a
failure returning false for the whole call.  The `Option.getD` models that a
`null` sub-relation would be coerced by the source through parsing into the
empty expression; for `rest` a subset of `b.nodes` it never occurs. -/
def subExpressionLoop (a b : MoronRelationExpression)
    (rest : List MoronRelationExpressionNode)
    (hb : b.isAllRecursive = false)
    (hrest : ∀ x, x ∈ rest → x ∈ b.nodes) : Bool :=
  match rest, hrest with
  | [], _ => true
  | node :: rest2, hr =>
    if hshort : (b.isRecursive node.name &&
        (a.isAllRecursive || a.isRecursive node.name)) = true then true
    else
      match hrel : a.relation node.name with
      | none => false
      | some own =>
        if MoronRelationExpression.isSubExpression own
            ((b.relation node.name).getD ⟨[]⟩) then
          subExpressionLoop a b rest2 hb
            (fun x hx => hr x (List.mem_cons_of_mem _ hx))
        else false
termination_by (forestSize a.nodes + forestSize b.nodes, rest.length + 1)
decreasing_by
  · apply Prod.Lex.left
    have hmem : node ∈ b.nodes := hr node (List.mem_cons_self _ _)
    obtain ⟨sub, hsub⟩ := relation_isSome_of_mem b node hb hmem
    rw [hsub]
    simp only [Option.getD_some]
    simp only [Bool.and_eq_true, Bool.or_eq_true, not_and, not_or,
      Bool.not_eq_true] at hshort
    by_cases hbr : b.isRecursive node.name = true
    · obtain ⟨ha1, ha2⟩ := hshort hbr
      have h1 := relation_size_lt a node.name own ha1 ha2 hrel
      have h2 := relation_size_le b node.name sub hsub
      omega
    · have h1 := relation_size_lt b node.name sub hb (by simpa using hbr) hsub
      have h2 := relation_size_le a node.name own hrel
      omega
  · apply Prod.Lex.right
    simp

end

example : MoronRelationExpression.isSubExpression ⟨[.mk "*" []]⟩ ⟨[.mk "*" []]⟩ = true := by
  rw [MoronRelationExpression.isSubExpression]
  simp [MoronRelationExpression.isAllRecursive, MoronRelationExpressionNode.name]

/-- JS `String.prototype.trim` on a list of characters: whitespace is removed
from both ends, as applied by `_forEachToken` to every emitted token. -/
def trimChars (l : List Char) : List Char :=
  ((l.dropWhile Char.isWhitespace).reverse.dropWhile Char.isWhitespace).reverse

/-- Total length of a list of tokens. -/
def sumLen : List (List Char) → Nat
  | [] => 0
  | t :: ts => t.length + sumLen ts

/-- Net bracket depth of a string: opening brackets minus closing brackets,
the final value of the `bracketDepth` counter that `_forEachToken` tests
after its scan. -/
def bracketDepth : List Char → Int
  | [] => 0
  | c :: cs =>
    (if c = '[' then 1 else if c = ']' then (-1 : Int) else 0) + bracketDepth cs

/-- Scanner of `MoronRelationExpressionParser.prototype._forEachToken`,
defunctionalised to return the list of emitted tokens: characters are
scanned left to right with a running bracket depth (`'['` increments, `']'`
decrements); a separator seen at depth exactly zero emits the trimmed text
accumulated since the previous split point, and the end of the string acts
as one final separator occurrence (so nothing is emitted at the end when the
depth there is nonzero).  `cur` holds the current token's characters in
reverse. -/
def tokenizeAux (sep : Char) : List Char → Int → List Char → List (List Char)
  | [], depth, cur => if depth = 0 then [trimChars cur.reverse] else []
  | c :: cs, depth, cur =>
    if c = '[' then tokenizeAux sep cs (depth + 1) (c :: cur)
    else if c = ']' then tokenizeAux sep cs (depth - 1) (c :: cur)
    else if c = sep ∧ depth = 0 then
      trimChars cur.reverse :: tokenizeAux sep cs depth []
    else tokenizeAux sep cs depth (c :: cur)

/-- Token list produced by one `_forEachToken` scan. -/
def tokenize (sep : Char) (s : List Char) : List (List Char) :=
  tokenizeAux sep s 0 []

/-- Embedding of the helper `isArrayToken`:
`token.length >= 2 && token.charAt(0) === '[' && token.charAt(token.length - 1) === ']'`. -/
def isArrayToken (t : List Char) : Bool :=
  decide (2 ≤ t.length) && (t.head? == some '[') && (t.getLast? == some ']')

/-- Embedding of the helper `stripArrayChars`:
`token.substring(1, token.length - 1)`. -/
def stripArrayChars (t : List Char) : List Char :=
  (t.drop 1).dropLast

/-- Dropping a prefix never lengthens a list. -/
def dropWhile_length_le : ∀ (p : Char → Bool) (l : List Char),
    (l.dropWhile p).length ≤ l.length := by
  intro p l
  induction l with
  | nil => simp
  | cons c cs ih =>
    rw [List.dropWhile_cons]
    split
    · exact le_trans ih (Nat.le_succ _)
    · simp

/-- Trimming never lengthens a token. -/
def trimChars_length_le : ∀ l : List Char, (trimChars l).length ≤ l.length := by
  intro l
  have h1 := dropWhile_length_le Char.isWhitespace
    (l.dropWhile Char.isWhitespace).reverse
  have h2 := dropWhile_length_le Char.isWhitespace l
  simp only [trimChars, List.length_reverse] at *
  omega

/-- Budget of the scanner: total token length plus token count never exceeds
the scanned length plus one (each emitted token consumes its characters, and
each separator consumes one character). -/
def tokenizeAux_budget : ∀ (sep : Char) (cs : List Char) (depth : Int)
    (cur : List Char),
    sumLen (tokenizeAux sep cs depth cur) + (tokenizeAux sep cs depth cur).length ≤
      cur.length + cs.length + 1 := by
  intro sep cs
  induction cs with
  | nil =>
    intro depth cur
    rw [tokenizeAux]
    split
    · have := trimChars_length_le cur.reverse
      simp only [sumLen, List.length_reverse, List.length_cons, List.length_nil] at *
      omega
    · simp [sumLen]
  | cons c cs ih =>
    intro depth cur
    rw [tokenizeAux]
    split_ifs with h1 h2 h3
    · have := ih (depth + 1) (c :: cur)
      simp only [List.length_cons] at *
      omega
    · have := ih (depth - 1) (c :: cur)
      simp only [List.length_cons] at *
      omega
    · have h := ih depth []
      have ht := trimChars_length_le cur.reverse
      simp only [sumLen, List.length_reverse, List.length_cons, List.length_nil] at *
      omega
    · have := ih depth (c :: cur)
      simp only [List.length_cons] at *
      omega

/-- Strict form of the scanner budget used by the parser's termination
measures. -/
def tokenizeAux_budget_lt : ∀ (sep : Char) (cs : List Char) (depth : Int)
    (cur : List Char),
    3 * sumLen (tokenizeAux sep cs depth cur) + (tokenizeAux sep cs depth cur).length <
      3 * (cur.length + cs.length) + 2 := by
  intro sep cs depth cur
  have h := tokenizeAux_budget sep cs depth cur
  cases htok : tokenizeAux sep cs depth cur with
  | nil => simp [sumLen]
  | cons t ts =>
    rw [htok] at h
    simp only [sumLen, List.length_cons] at *
    omega

/-- An array token has at least its two bracket characters. -/
def isArrayToken_length : ∀ t : List Char, isArrayToken t = true → 2 ≤ t.length := by
  intro t h
  simp only [isArrayToken, Bool.and_eq_true, decide_eq_true_eq] at h
  exact h.1.1

/-- Stripping the outer brackets removes exactly two characters. -/
def stripArrayChars_length : ∀ t : List Char,
    (stripArrayChars t).length = t.length - 2 := by
  intro t
  simp only [stripArrayChars, List.length_dropLast, List.length_drop]
  omega

mutual

/-- Embedding of `MoronRelationExpressionParser.prototype._parse`: split the
string on `'.'` at bracket depth zero, build the node chain from the tokens,
and fail if the scan ended at nonzero bracket depth (the check performed by
`_forEachToken` after its loop; the token callbacks run during the loop, so
their errors surface regardless of that final check). -/
def parseExpr (s : List Char) : Except Unit (List MoronRelationExpressionNode) :=
  match parseChainTokens (tokenize '.' s) with
  | .error e => .error e
  | .ok forest => if bracketDepth s = 0 then .ok forest else .error ()
termination_by 3 * s.length + 2
decreasing_by
  have h := tokenizeAux_budget_lt '.' s 0 []
  simp only [tokenize, List.length_nil] at *
  omega

/-- Fold of `_parse`'s token callback `_parseIterator` over the dotted-chain
tokens, carrying the source's mutable insertion point functionally: a plain
token pushes one node at the current position and the remaining tokens build
that node's children (`_parseToken` returns `node.children`); an array token
pushes its branch roots at the current position and leaves the position
unchanged, so the remaining tokens append further siblings after them.  An
empty plain token raises the validation error. -/
def parseChainTokens :
    List (List Char) → Except Unit (List MoronRelationExpressionNode)
  | [] => .ok []
  | t :: rest =>
    if h : isArrayToken t = true then
      match parseArrayToken t with
      | .error e => .error e
      | .ok sibs =>
        match parseChainTokens rest with
        | .error e => .error e
        | .ok more => .ok (sibs ++ more)
    else if t.isEmpty then .error ()
    else
      match parseChainTokens rest with
      | .error e => .error e
      | .ok kids => .ok [MoronRelationExpressionNode.mk (String.mk t) kids]
termination_by ts => 3 * sumLen ts + ts.length
decreasing_by
  · have h2 := isArrayToken_length t h
    have h3 := stripArrayChars_length t
    simp only [sumLen, List.length_cons]
    omega
  · simp only [sumLen, List.length_cons]
    omega
  · simp only [sumLen, List.length_cons]
    omega

/-- Embedding of `MoronRelationExpressionParser.prototype._parseArrayToken`:
strip the outer brackets, split the content on `','` at bracket depth zero,
parse every sub-token as a full expression appending all its root nodes as
siblings (`_parseArrayIterator`), and fail if the comma scan of the stripped
content ended at nonzero bracket depth. -/
def parseArrayToken (t : List Char) :
    Except Unit (List MoronRelationExpressionNode) :=
  match parseSubTokens (tokenize ',' (stripArrayChars t)) with
  | .error e => .error e
  | .ok sibs =>
    if bracketDepth (stripArrayChars t) = 0 then .ok sibs else .error ()
termination_by 3 * (stripArrayChars t).length + 5
decreasing_by
  have h := tokenizeAux_budget_lt ',' (stripArrayChars t) 0 []
  simp only [tokenize, List.length_nil] at *
  omega

/-- Fold of `_parseArrayIterator` over the comma sub-tokens: each sub-token
is parsed by `_parse` and its root nodes are appended in order. -/
def parseSubTokens :
    List (List Char) → Except Unit (List MoronRelationExpressionNode)
  | [] => .ok []
  | t :: rest =>
    match parseExpr t with
    | .error e => .error e
    | .ok branch =>
      match parseSubTokens rest with
      | .error e => .error e
      | .ok more => .ok (branch ++ more)
termination_by ts => 3 * sumLen ts + ts.length + 3
decreasing_by
  · simp only [sumLen, List.length_cons]
    omega
  · simp only [sumLen, List.length_cons]
    omega

end

/-- Possible JavaScript inputs to `parse`, as far as the guard
`!_.isString(str) || !str` distinguishes them: a string, `null`,
`undefined`, or any other non-string value. -/
inductive JsValue : Type where
  | str (s : String)
  | nullV
  | undefV
  | otherNonString

/-- Embedding of `MoronRelationExpressionParser.prototype.parse` (also
exposed as `MoronRelationExpression.parse`): a non-string or empty-string
input yields the empty expression without error; any other string is parsed
by `_parse`, and a validation failure raises the single error whose message
appends the original input string `this.str` verbatim. -/
def MoronRelationExpression.parse : JsValue → Except String MoronRelationExpression
  | .str s =>
    if s = "" then .ok ⟨[]⟩
    else
      match parseExpr s.data with
      | .ok forest => .ok ⟨forest⟩
      | .error _ => .error ("invalid relation expression: " ++ s)
  | .nullV => .ok ⟨[]⟩
  | .undefV => .ok ⟨[]⟩
  | .otherNonString => .ok ⟨[]⟩

example : tokenize '.' "a.[b,c]".data = [['a'], ['[', 'b', ',', 'c', ']']] := by rfl

mutual

/-- Fuel-indexed mirror of `parseExpr`, used to evaluate the parser on
concrete inputs by kernel reduction; `parseFuel_spec` shows it agrees with
`parseExpr` once the fuel exceeds the termination measure. -/
def parseExprFuel : Nat → List Char → Except Unit (List MoronRelationExpressionNode)
  | 0, _ => .error ()
  | fuel + 1, s =>
    match parseChainTokensFuel fuel (tokenize '.' s) with
    | .error e => .error e
    | .ok forest => if bracketDepth s = 0 then .ok forest else .error ()

/-- Fuel-indexed mirror of `parseChainTokens`. -/
def parseChainTokensFuel :
    Nat → List (List Char) → Except Unit (List MoronRelationExpressionNode)
  | 0, _ => .error ()
  | _ + 1, [] => .ok []
  | fuel + 1, t :: rest =>
    if isArrayToken t = true then
      match parseArrayTokenFuel fuel t with
      | .error e => .error e
      | .ok sibs =>
        match parseChainTokensFuel fuel rest with
        | .error e => .error e
        | .ok more => .ok (sibs ++ more)
    else if t.isEmpty then .error ()
    else
      match parseChainTokensFuel fuel rest with
      | .error e => .error e
      | .ok kids => .ok [MoronRelationExpressionNode.mk (String.mk t) kids]

/-- Fuel-indexed mirror of `parseArrayToken`. -/
def parseArrayTokenFuel :
    Nat → List Char → Except Unit (List MoronRelationExpressionNode)
  | 0, _ => .error ()
  | fuel + 1, t =>
    match parseSubTokensFuel fuel (tokenize ',' (stripArrayChars t)) with
    | .error e => .error e
    | .ok sibs =>
      if bracketDepth (stripArrayChars t) = 0 then .ok sibs else .error ()

/-- Fuel-indexed mirror of `parseSubTokens`. -/
def parseSubTokensFuel :
    Nat → List (List Char) → Except Unit (List MoronRelationExpressionNode)
  | 0, _ => .error ()
  | _ + 1, [] => .ok []
  | fuel + 1, t :: rest =>
    match parseExprFuel fuel t with
    | .error e => .error e
    | .ok branch =>
      match parseSubTokensFuel fuel rest with
      | .error e => .error e
      | .ok more => .ok (branch ++ more)

end

/-- Adequacy of the fuel-indexed parser: with fuel above the corresponding
termination measure, each fuel-indexed function computes its well-founded
counterpart. -/
def parseFuel_spec : ∀ fuel : Nat,
    (∀ s, 3 * s.length + 2 < fuel → parseExprFuel fuel s = parseExpr s) ∧
    (∀ ts, 3 * sumLen ts + ts.length < fuel →
      parseChainTokensFuel fuel ts = parseChainTokens ts) ∧
    (∀ t, 3 * (stripArrayChars t).length + 5 < fuel →
      parseArrayTokenFuel fuel t = parseArrayToken t) ∧
    (∀ ts, 3 * sumLen ts + ts.length + 3 < fuel →
      parseSubTokensFuel fuel ts = parseSubTokens ts) := by
  intro fuel
  induction fuel with
  | zero =>
    refine ⟨?_, ?_, ?_, ?_⟩ <;> intro x h <;> omega
  | succ fuel ih =>
    obtain ⟨ihE, ihC, ihA, ihS⟩ := ih
    refine ⟨?_, ?_, ?_, ?_⟩
    · intro s h
      rw [parseExprFuel, parseExpr]
      rw [ihC (tokenize '.' s) ?_]
      have := tokenizeAux_budget_lt '.' s 0 []
      simp only [tokenize, List.length_nil] at *
      omega
    · intro ts h
      cases ts with
      | nil => rw [parseChainTokensFuel, parseChainTokens]
      | cons t rest =>
        rw [parseChainTokensFuel, parseChainTokens]
        simp only [sumLen, List.length_cons] at h
        by_cases harr : isArrayToken t = true
        · rw [if_pos harr, dif_pos harr]
          have h2 := isArrayToken_length t harr
          have h3 := stripArrayChars_length t
          rw [ihA t (by omega), ihC rest (by omega)]
        · rw [if_neg harr, dif_neg harr]
          by_cases hemp : t.isEmpty
          · rw [if_pos hemp, if_pos hemp]
          · rw [if_neg hemp, if_neg hemp, ihC rest (by omega)]
    · intro t h
      rw [parseArrayTokenFuel, parseArrayToken]
      rw [ihS (tokenize ',' (stripArrayChars t)) ?_]
      have := tokenizeAux_budget_lt ',' (stripArrayChars t) 0 []
      simp only [tokenize, List.length_nil] at *
      omega
    · intro ts h
      cases ts with
      | nil => rw [parseSubTokensFuel, parseSubTokens]
      | cons t rest =>
        rw [parseSubTokensFuel, parseSubTokens]
        simp only [sumLen, List.length_cons] at h
        rw [ihE t (by omega), ihS rest (by omega)]

/-- The well-founded parser can be computed through the fuel-indexed one. -/
def parseExpr_eq_fuel : ∀ (s : List Char) (fuel : Nat),
    3 * s.length + 2 < fuel → parseExpr s = parseExprFuel fuel s :=
  fun s fuel h => ((parseFuel_spec fuel).1 s h).symm

/-- Kernel-computable evaluator for `parse` on string inputs. -/
def parseStringFuel (s : String) : Except String MoronRelationExpression :=
  if s = "" then .ok ⟨[]⟩
  else
    match parseExprFuel (3 * s.data.length + 3) s.data with
    | .ok forest => .ok ⟨forest⟩
    | .error _ => .error ("invalid relation expression: " ++ s)

/-- Evaluation lemma: `parse` on a string input equals its kernel-computable
evaluator. -/
def parse_str_eval : ∀ s : String,
    MoronRelationExpression.parse (.str s) = parseStringFuel s := by
  intro s
  rw [MoronRelationExpression.parse]
  simp only [parseStringFuel]
  by_cases h : s = ""
  · simp [h]
  · rw [if_neg h, if_neg h,
      parseExpr_eq_fuel s.data (3 * s.data.length + 3) (by omega)]

example : MoronRelationExpression.parse (.str "a.[b,c]") =
    .ok ⟨[.mk "a" [.mk "b" [], .mk "c" []]]⟩ := by
  rw [parse_str_eval]
  rfl

example : MoronRelationExpression.parse (.str "a.[b,c") =
    .error "invalid relation expression: a.[b,c" := by
  rw [parse_str_eval]
  rfl

example : MoronRelationExpression.parse (.str "a..b") =
    .error "invalid relation expression: a..b" := by
  rw [parse_str_eval]
  rfl

example : MoronRelationExpression.parse (.str "children.[movies.actors.[pets, children], pets]") =
    .ok ⟨[.mk "children" [.mk "movies" [.mk "actors" [.mk "pets" [], .mk "children" []]], .mk "pets" []]]⟩ := by
  rw [parse_str_eval]
  rfl

/-- True exactly when an `Except` computation failed. -/
def isErr {e a : Type} : Except e a → Bool
  | .error _ => true
  | .ok _ => false

mutual

/-- Trigger condition of the Invalid Expression error as the spec words it
for one dotted chain (claim C6): some token of the `'.'` split triggers, or
the brackets of the scanned string are unbalanced — the check made by this
invocation of the splitter. -/
def specChainTrigger (s : List Char) : Bool :=
  specAnyTokenTrigger (tokenize '.' s) || decide (bracketDepth s ≠ 0)
termination_by 3 * s.length + 2
decreasing_by
  have h := tokenizeAux_budget_lt '.' s 0 []
  simp only [tokenize, List.length_nil] at *
  omega

/-- Trigger scan over the tokens of one dotted chain: an array token
triggers through its bracketed content, a plain token triggers exactly when
it is an identifier that is empty after trimming. -/
def specAnyTokenTrigger : List (List Char) → Bool
  | [] => false
  | t :: rest =>
    (if h : isArrayToken t = true then specArrayTrigger t else t.isEmpty) ||
      specAnyTokenTrigger rest
termination_by ts => 3 * sumLen ts + ts.length
decreasing_by
  · have h2 := isArrayToken_length t h
    have h3 := stripArrayChars_length t
    simp only [sumLen, List.length_cons]
    omega
  · simp only [sumLen, List.length_cons]
    omega

/-- Trigger for one array token: its stripped content is split on `','` —
one more recursive invocation of the splitter, with its own
unbalanced-bracket check — and every comma sub-token is checked as a full
dotted chain. -/
def specArrayTrigger (t : List Char) : Bool :=
  specAnyChainTrigger (tokenize ',' (stripArrayChars t)) ||
    decide (bracketDepth (stripArrayChars t) ≠ 0)
termination_by 3 * (stripArrayChars t).length + 5
decreasing_by
  have h := tokenizeAux_budget_lt ',' (stripArrayChars t) 0 []
  simp only [tokenize, List.length_nil] at *
  omega

/-- Trigger scan over the comma sub-tokens of an array token. -/
def specAnyChainTrigger : List (List Char) → Bool
  | [] => false
  | t :: rest => specChainTrigger t || specAnyChainTrigger rest
termination_by ts => 3 * sumLen ts + ts.length + 3
decreasing_by
  · simp only [sumLen, List.length_cons]
    omega
  · simp only [sumLen, List.length_cons]
    omega

end

/-- One loop step of `isSubExpression` lets the scan continue past root node
`m` of the argument expression: either the recursive-match short-circuit
fires at `m` (which makes the whole call true), or `this.relation` exists at
`m`'s name and the recursive containment check on the sub-relations
succeeds. -/
def loopStepContinues (a b : MoronRelationExpression)
    (m : MoronRelationExpressionNode) : Prop :=
  (b.isRecursive m.name && (a.isAllRecursive || a.isRecursive m.name)) = true ∨
  (∃ own, a.relation m.name = some own ∧
    MoronRelationExpression.isSubExpression own
      ((b.relation m.name).getD ⟨[]⟩) = true)

/-- Modelled from the words of claim C3: some root node of the expression is
named `relationName` and that node has exactly one child, named `"^"`.  The
source's `isRecursive` is compared against this reading. -/
def specSomeRecursiveRoot (e : MoronRelationExpression)
    (relationName : String) : Bool :=
  e.nodes.any fun m =>
    m.name == relationName &&
      (match m.children with
       | [c] => c.name == "^"
       | _ => false)

/-- The guard `_.isString(str) && str` of `parse`: true exactly for a
non-empty string input. -/
def isNonEmptyStringInput : JsValue → Bool
  | .str s => !(s == "")
  | _ => false

theorem subExpressionLoop_nil (a b : MoronRelationExpression)
    (hb : b.isAllRecursive = false)
    (hr : ∀ x, x ∈ ([] : List MoronRelationExpressionNode) → x ∈ b.nodes) :
    subExpressionLoop a b [] hb hr = true := by
  rw [subExpressionLoop]

theorem subExpressionLoop_cons_short (a b : MoronRelationExpression)
    (node : MoronRelationExpressionNode)
    (rest2 : List MoronRelationExpressionNode)
    (hb : b.isAllRecursive = false)
    (hr : ∀ x, x ∈ node :: rest2 → x ∈ b.nodes)
    (hshort : (b.isRecursive node.name &&
      (a.isAllRecursive || a.isRecursive node.name)) = true) :
    subExpressionLoop a b (node :: rest2) hb hr = true := by
  rw [subExpressionLoop]
  simp only [hshort, dite_true, dif_pos]

theorem subExpressionLoop_cons_continue (a b : MoronRelationExpression)
    (node : MoronRelationExpressionNode)
    (rest2 : List MoronRelationExpressionNode)
    (hb : b.isAllRecursive = false)
    (hr : ∀ x, x ∈ node :: rest2 → x ∈ b.nodes)
    (hshort : ¬(b.isRecursive node.name &&
      (a.isAllRecursive || a.isRecursive node.name)) = true)
    (own : MoronRelationExpression)
    (hown : a.relation node.name = some own)
    (hsub : MoronRelationExpression.isSubExpression own
      ((b.relation node.name).getD ⟨[]⟩) = true) :
    subExpressionLoop a b (node :: rest2) hb hr =
      subExpressionLoop a b rest2 hb
        (fun x hx => hr x (List.mem_cons_of_mem _ hx)) := by
  rw [subExpressionLoop]
  rw [dif_neg hshort]
  split
  · rename_i heq
    rw [hown] at heq
    exact absurd heq (Option.some_ne_none own)
  · rename_i own2 heq
    rw [hown] at heq
    injection heq with h2
    subst h2
    simp [hsub]

theorem isSubExpression_eq_loop (a b : MoronRelationExpression)
    (hb : b.isAllRecursive = false) :
    MoronRelationExpression.isSubExpression a b =
      subExpressionLoop a b b.nodes hb (fun x hx => hx) := by
  rw [MoronRelationExpression.isSubExpression]
  rw [dif_neg (by simp [hb])]

theorem subExpressionLoop_refl (e : MoronRelationExpression)
    (hb : e.isAllRecursive = false)
    (ih : ∀ e2 : MoronRelationExpression,
      forestSize e2.nodes < forestSize e.nodes →
      MoronRelationExpression.isSubExpression e2 e2 = true) :
    ∀ (rest : List MoronRelationExpressionNode)
      (hr : ∀ x, x ∈ rest → x ∈ e.nodes),
      subExpressionLoop e e rest hb hr = true := by
  intro rest
  induction rest with
  | nil => intro hr; exact subExpressionLoop_nil e e hb hr
  | cons node rest2 ihl =>
    intro hr
    by_cases hrec : e.isRecursive node.name = true
    · exact subExpressionLoop_cons_short e e node rest2 hb hr (by simp [hrec])
    · have hmem : node ∈ e.nodes := hr node (List.mem_cons_self _ _)
      obtain ⟨sub, hsub⟩ := relation_isSome_of_mem e node hb hmem
      have hshort : ¬(e.isRecursive node.name &&
          (e.isAllRecursive || e.isRecursive node.name)) = true := by
        simp [Bool.not_eq_true _ ▸ hrec]
      have hlt := relation_size_lt e node.name sub hb
        (by simpa using hrec) hsub
      have hrefl : MoronRelationExpression.isSubExpression sub
          ((e.relation node.name).getD ⟨[]⟩) = true := by
        rw [hsub]
        exact ih sub hlt
      rw [subExpressionLoop_cons_continue e e node rest2 hb hr hshort sub hsub hrefl]
      exact ihl _

theorem isSubExpression_refl_step (e : MoronRelationExpression)
    (ih : ∀ e2 : MoronRelationExpression,
      forestSize e2.nodes < forestSize e.nodes →
      MoronRelationExpression.isSubExpression e2 e2 = true) :
    MoronRelationExpression.isSubExpression e e = true := by
  by_cases hall : e.isAllRecursive = true
  · rw [MoronRelationExpression.isSubExpression, dif_pos hall]
    exact hall
  · have hb : e.isAllRecursive = false := by simpa using hall
    rw [isSubExpression_eq_loop e e hb]
    exact subExpressionLoop_refl e hb ih e.nodes (fun x hx => hx)

theorem isSubExpression_refl : ∀ e : MoronRelationExpression,
    MoronRelationExpression.isSubExpression e e = true := by
  suffices h : ∀ (N : Nat) (e : MoronRelationExpression),
      forestSize e.nodes ≤ N →
      MoronRelationExpression.isSubExpression e e = true by
    intro e
    exact h (forestSize e.nodes) e le_rfl
  intro N
  induction N with
  | zero =>
    intro e he
    exact isSubExpression_refl_step e
      (fun e2 hlt => absurd (Nat.lt_of_lt_of_le hlt he) (Nat.not_lt_zero _))
  | succ N ihN =>
    intro e he
    exact isSubExpression_refl_step e (fun e2 hlt => ihN e2 (by omega))

/-- C4: for every pair of parsed expressions `A` and `B` (the theorem holds
for all expression values, in particular all parse results), if
`B.isAllRecursive()` is true then `A.isSubExpression(B)` returns
`A.isAllRecursive()`: only the universal wildcard contains the universal
wildcard. -/
theorem claimC4_subExpression_allRecursive
    (a b : MoronRelationExpression) (hb : b.isAllRecursive = true) :
    MoronRelationExpression.isSubExpression a b = a.isAllRecursive := by
  rw [MoronRelationExpression.isSubExpression, dif_pos hb]

theorem claimC4_witness :
    MoronRelationExpression.isSubExpression
      ⟨[.mk "a" []]⟩ ⟨[.mk "*" []]⟩ = false := by
  rw [claimC4_subExpression_allRecursive ⟨[.mk "a" []]⟩ ⟨[.mk "*" []]⟩ rfl]
  rfl

/-- C5: every expression produced by a successful parse is a sub-expression
of itself (reflexivity of containment over identical trees, recursion
markers and wildcards included). -/
theorem claimC5_reflexivity (v : JsValue) (e : MoronRelationExpression)
    (h : MoronRelationExpression.parse v = .ok e) :
    MoronRelationExpression.isSubExpression e e = true :=
  isSubExpression_refl e

theorem claimC5_witness :
    MoronRelationExpression.isSubExpression
      ⟨[.mk "children" [.mk "movies" [.mk "actors" [.mk "pets" [],
        .mk "children" []]], .mk "pets" []]]⟩
      ⟨[.mk "children" [.mk "movies" [.mk "actors" [.mk "pets" [],
        .mk "children" []]], .mk "pets" []]]⟩ = true :=
  claimC5_reflexivity (.str "children.[movies.actors.[pets, children], pets]")
    _ (by rw [parse_str_eval]; rfl)

theorem subExpressionLoop_append_short (a b : MoronRelationExpression)
    (node : MoronRelationExpressionNode)
    (post : List MoronRelationExpressionNode)
    (hb : b.isAllRecursive = false)
    (hnode : (b.isRecursive node.name &&
      (a.isAllRecursive || a.isRecursive node.name)) = true) :
    ∀ (pre : List MoronRelationExpressionNode)
      (hr : ∀ x, x ∈ pre ++ node :: post → x ∈ b.nodes),
      (∀ m, m ∈ pre → loopStepContinues a b m) →
      subExpressionLoop a b (pre ++ node :: post) hb hr = true := by
  intro pre
  induction pre with
  | nil =>
    intro hr hpre
    exact subExpressionLoop_cons_short a b node post hb hr hnode
  | cons m pre2 ih =>
    intro hr hpre
    show subExpressionLoop a b (m :: (pre2 ++ node :: post)) hb hr = true
    rcases hpre m (List.mem_cons_self _ _) with hshort | ⟨own, hown, hsub⟩
    · exact subExpressionLoop_cons_short a b m (pre2 ++ node :: post) hb hr hshort
    · by_cases hms : (b.isRecursive m.name &&
          (a.isAllRecursive || a.isRecursive m.name)) = true
      · exact subExpressionLoop_cons_short a b m (pre2 ++ node :: post) hb hr hms
      · rw [subExpressionLoop_cons_continue a b m (pre2 ++ node :: post)
          hb hr hms own hown hsub]
        exact ih _ (fun m2 hm2 => hpre m2 (List.mem_cons_of_mem _ hm2))

/-- C1: `A.isSubExpression(B)` returns true for the whole comparison as soon
as the scan of `B`'s root names reaches a name `n` with `B` recursive at `n`
and `A` all-recursive or recursive at `n` — the nodes after that point
(`post`) are arbitrary, so root names of `B` that are absent from `A` may
follow.  Reaching that point means the scan did not return false earlier
(`loopStepContinues` for every earlier root), and the scan only runs when
`B` is not the all-recursive wildcard. -/
theorem claimC1_shortCircuit (a b : MoronRelationExpression)
    (pre post : List MoronRelationExpressionNode)
    (node : MoronRelationExpressionNode)
    (hb : b.isAllRecursive = false)
    (hdecomp : b.nodes = pre ++ node :: post)
    (hpre : ∀ m, m ∈ pre → loopStepContinues a b m)
    (hrec : b.isRecursive node.name = true)
    (hmatch : a.isAllRecursive = true ∨ a.isRecursive node.name = true) :
    MoronRelationExpression.isSubExpression a b = true := by
  rw [isSubExpression_eq_loop a b hb]
  have hnode : (b.isRecursive node.name &&
      (a.isAllRecursive || a.isRecursive node.name)) = true := by
    rcases hmatch with h | h <;> simp [hrec, h]
  have main : ∀ (rest : List MoronRelationExpressionNode),
      rest = pre ++ node :: post →
      ∀ hr : (∀ x, x ∈ rest → x ∈ b.nodes),
      subExpressionLoop a b rest hb hr = true := by
    intro rest hreq
    subst hreq
    intro hr
    exact subExpressionLoop_append_short a b node post hb hnode pre hr hpre
  exact main b.nodes hdecomp _

theorem claimC1_witness :
    MoronRelationExpression.isSubExpression
      ⟨[.mk "a" [.mk "^" []]]⟩
      ⟨[.mk "a" [.mk "^" []], .mk "z" []]⟩ = true :=
  claimC1_shortCircuit ⟨[.mk "a" [.mk "^" []]]⟩
    ⟨[.mk "a" [.mk "^" []], .mk "z" []]⟩
    [] [.mk "z" []] (.mk "a" [.mk "^" []]) rfl rfl
    (fun m hm => absurd hm (List.not_mem_nil m)) rfl (Or.inr rfl)

theorem relationSearch_first_match (e : MoronRelationExpression) (n : String) :
    ∀ (pre : List MoronRelationExpressionNode)
      (node : MoronRelationExpressionNode)
      (post : List MoronRelationExpressionNode),
      node.name = n → (∀ m, m ∈ pre → m.name ≠ n) →
      relationSearch e n (pre ++ node :: post) =
        some (if e.isRecursive n then ⟨[node]⟩ else ⟨node.children⟩) := by
  intro pre
  induction pre with
  | nil =>
    intro node post hname hpre
    rw [List.nil_append, relationSearch, if_pos (by simpa using hname), hname]
    split <;> rfl
  | cons m pre2 ih =>
    intro node post hname hpre
    rw [List.cons_append, relationSearch,
      if_neg (by simpa using hpre m (List.mem_cons_self _ _))]
    exact ih node post hname (fun m2 hm2 => hpre m2 (List.mem_cons_of_mem _ hm2))

theorem relationSearch_no_match (e : MoronRelationExpression) (n : String) :
    ∀ l : List MoronRelationExpressionNode,
      (∀ m, m ∈ l → m.name ≠ n) → relationSearch e n l = none := by
  intro l
  induction l with
  | nil => intro _; rw [relationSearch]
  | cons m l2 ih =>
    intro hl
    rw [relationSearch, if_neg (by simpa using hl m (List.mem_cons_self _ _))]
    exact ih (fun m2 hm2 => hl m2 (List.mem_cons_of_mem _ hm2))

/-- C2: full behaviour of `relation(n)` on every expression `E` (in
particular every parsed one): if `E.isAllRecursive()` it returns `E` itself
unchanged; otherwise, at the first root node named `n` it returns a new
expression whose single root is that node when `E.isRecursive(n)` holds, or
a new expression wrapping that node's children when it does not; and it
returns null — `none`, not an empty expression — when no root is named `n`. -/
theorem claimC2_relation (e : MoronRelationExpression) (n : String) :
    (e.isAllRecursive = true → e.relation n = some e) ∧
    (∀ pre node post, e.isAllRecursive = false →
      e.nodes = pre ++ node :: post → node.name = n →
      (∀ m, m ∈ pre → m.name ≠ n) →
      e.relation n =
        some (if e.isRecursive n then ⟨[node]⟩ else ⟨node.children⟩)) ∧
    (e.isAllRecursive = false → (∀ m, m ∈ e.nodes → m.name ≠ n) →
      e.relation n = none) := by
  refine ⟨?_, ?_, ?_⟩
  · intro hall
    rw [MoronRelationExpression.relation, if_pos hall]
  · intro pre node post hall hdecomp hname hpre
    rw [MoronRelationExpression.relation, if_neg (by simp [hall]), hdecomp]
    exact relationSearch_first_match e n pre node post hname hpre
  · intro hall hnone
    rw [MoronRelationExpression.relation, if_neg (by simp [hall])]
    exact relationSearch_no_match e n e.nodes hnone

theorem claimC2_witness :
    MoronRelationExpression.relation ⟨[.mk "*" []]⟩ "q" =
      some ⟨[.mk "*" []]⟩ ∧
    MoronRelationExpression.relation ⟨[.mk "b" [], .mk "a" [.mk "c" []]]⟩ "a" =
      some ⟨[.mk "c" []]⟩ ∧
    MoronRelationExpression.relation ⟨[.mk "a" [.mk "^" []]]⟩ "a" =
      some ⟨[.mk "a" [.mk "^" []]]⟩ ∧
    MoronRelationExpression.relation ⟨[.mk "b" []]⟩ "a" = none := by
  refine ⟨(claimC2_relation ⟨[.mk "*" []]⟩ "q").1 rfl, ?_, ?_, ?_⟩
  · have h := (claimC2_relation ⟨[.mk "b" [], .mk "a" [.mk "c" []]]⟩ "a").2.1
      [.mk "b" []] (.mk "a" [.mk "c" []]) [] rfl rfl rfl
      (fun m hm => by rw [List.mem_singleton.mp hm]; decide)
    rw [h]
    rfl
  · have h := (claimC2_relation ⟨[.mk "a" [.mk "^" []]]⟩ "a").2.1
      [] (.mk "a" [.mk "^" []]) [] rfl rfl rfl
      (fun m hm => absurd hm (List.not_mem_nil m))
    rw [h]
    rfl
  · exact (claimC2_relation ⟨[.mk "b" []]⟩ "a").2.2 rfl
      (fun m hm => by rw [List.mem_singleton.mp hm]; decide)

theorem isRecursiveSearch_first_iff :
    ∀ (l : List MoronRelationExpressionNode) (n : String),
      isRecursiveSearch l n = true ↔
      ∃ pre node post, l = pre ++ node :: post ∧
        (∀ m, m ∈ pre → m.name ≠ n) ∧ node.name = n ∧
        ∃ c, node.children = [c] ∧ c.name = "^" := by
  intro l n
  induction l with
  | nil =>
    constructor
    · intro h
      rw [isRecursiveSearch] at h
      exact absurd h (by simp)
    · rintro ⟨pre, node, post, h, -⟩
      cases pre <;> simp at h
  | cons x xs ih =>
    constructor
    · intro h
      rw [isRecursiveSearch] at h
      by_cases hx : x.name = n
      · rw [if_pos (by simpa using hx)] at h
        cases hc : x.children with
        | nil => rw [hc] at h; exact absurd h (by simp)
        | cons c cs =>
          cases cs with
          | nil =>
            rw [hc] at h
            exact ⟨[], x, xs, rfl, by simp, hx, c, hc, by simpa using h⟩
          | cons c2 cs2 => rw [hc] at h; exact absurd h (by simp)
      · rw [if_neg (by simpa using hx)] at h
        obtain ⟨pre, node, post, heq, hpre, hname, hch⟩ := ih.mp h
        exact ⟨x :: pre, node, post, by rw [heq, List.cons_append],
          fun m hm => by
            rcases List.mem_cons.mp hm with h1 | h1
            · rw [h1]; exact hx
            · exact hpre m h1,
          hname, hch⟩
    · rintro ⟨pre, node, post, heq, hpre, hname, c, hc, hcname⟩
      cases pre with
      | nil =>
        rw [List.nil_append] at heq
        injection heq with h1 h2
        subst h1
        rw [isRecursiveSearch, if_pos (by simpa using hname), hc]
        simpa using hcname
      | cons p pre2 =>
        rw [List.cons_append] at heq
        injection heq with h1 h2
        subst h1
        subst h2
        rw [isRecursiveSearch,
          if_neg (by simpa using hpre x (List.mem_cons_self _ _))]
        exact ih.mpr ⟨pre2, node, post, rfl,
          fun m hm => hpre m (List.mem_cons_of_mem _ hm), hname, c, hc, hcname⟩

/-- C3, counterexample to the claim as stated: for the parsed expression
`[a, a.^]` there is a root node named `"a"` with exactly one child named
`"^"` (the second one), yet `isRecursive("a")` returns false, because the
source loop decides at the first root named `"a"`, whose only-child test
fails. -/
theorem claimC3_counterexample :
    MoronRelationExpression.parse (.str "[a, a.^]") =
      .ok ⟨[.mk "a" [], .mk "a" [.mk "^" []]]⟩ ∧
    MoronRelationExpression.isRecursive
      ⟨[.mk "a" [], .mk "a" [.mk "^" []]]⟩ "a" = false ∧
    specSomeRecursiveRoot
      ⟨[.mk "a" [], .mk "a" [.mk "^" []]]⟩ "a" = true := by
  refine ⟨?_, rfl, rfl⟩
  rw [parse_str_eval]
  rfl

/-- C3, amended: `E.isRecursive(n)` is true iff the first root node of `E`
named `n` exists and has exactly one child, named `"^"` (later roots with
the same name are not consulted); in particular `parse("a.^").isRecursive("a")`
is true and `parse("a.b").isRecursive("a")` is false. -/
theorem claimC3_amended_isRecursive :
    (∀ (e : MoronRelationExpression) (n : String),
      e.isRecursive n = true ↔
      ∃ pre node post, e.nodes = pre ++ node :: post ∧
        (∀ m, m ∈ pre → m.name ≠ n) ∧ node.name = n ∧
        ∃ c, node.children = [c] ∧ c.name = "^") ∧
    (MoronRelationExpression.parse (.str "a.^")).map
      (fun e => e.isRecursive "a") = .ok true ∧
    (MoronRelationExpression.parse (.str "a.b")).map
      (fun e => e.isRecursive "a") = .ok false := by
  refine ⟨fun e n => isRecursiveSearch_first_iff e.nodes n, ?_, ?_⟩
  · rw [parse_str_eval]; rfl
  · rw [parse_str_eval]; rfl

theorem claimC3_witness :
    MoronRelationExpression.isRecursive
      ⟨[.mk "b" [], .mk "a" [.mk "^" []]]⟩ "a" = true :=
  (claimC3_amended_isRecursive.1 ⟨[.mk "b" [], .mk "a" [.mk "^" []]]⟩ "a").mpr
    ⟨[.mk "b" []], .mk "a" [.mk "^" []], [], rfl,
      fun m hm => by rw [List.mem_singleton.mp hm]; decide,
      rfl, .mk "^" [], rfl, rfl⟩

theorem trigger_equiv : ∀ N : Nat,
    (∀ s, 3 * s.length + 2 ≤ N →
      isErr (parseExpr s) = specChainTrigger s) ∧
    (∀ ts, 3 * sumLen ts + ts.length ≤ N →
      isErr (parseChainTokens ts) = specAnyTokenTrigger ts) ∧
    (∀ t, 3 * (stripArrayChars t).length + 5 ≤ N →
      isErr (parseArrayToken t) = specArrayTrigger t) ∧
    (∀ ts, 3 * sumLen ts + ts.length + 3 ≤ N →
      isErr (parseSubTokens ts) = specAnyChainTrigger ts) := by
  intro N
  induction N with
  | zero =>
    refine ⟨?_, ?_, ?_, ?_⟩
    · intro s h; omega
    · intro ts h
      have : ts = [] := by
        cases ts with
        | nil => rfl
        | cons t rest => simp [List.length_cons] at h
      subst this
      rw [parseChainTokens, specAnyTokenTrigger]
      rfl
    · intro t h; omega
    · intro ts h; omega
  | succ N ih =>
    obtain ⟨ihE, ihC, ihA, ihS⟩ := ih
    refine ⟨?_, ?_, ?_, ?_⟩
    · intro s h
      rw [parseExpr, specChainTrigger]
      have hbound : 3 * sumLen (tokenize '.' s) + (tokenize '.' s).length ≤ N := by
        have := tokenizeAux_budget_lt '.' s 0 []
        simp only [tokenize, List.length_nil] at *
        omega
      rw [← ihC (tokenize '.' s) hbound]
      cases hc : parseChainTokens (tokenize '.' s) with
      | error u => simp [isErr]
      | ok f =>
        by_cases hd : bracketDepth s = 0 <;> simp [isErr, hd]
    · intro ts h
      cases ts with
      | nil =>
        rw [parseChainTokens, specAnyTokenTrigger]
        rfl
      | cons t rest =>
        rw [parseChainTokens, specAnyTokenTrigger]
        simp only [sumLen, List.length_cons] at h
        by_cases harr : isArrayToken t = true
        · rw [dif_pos harr, dif_pos harr]
          have h2 := isArrayToken_length t harr
          have h3 := stripArrayChars_length t
          rw [← ihA t (by omega), ← ihC rest (by omega)]
          cases ha : parseArrayToken t with
          | error u => simp [isErr]
          | ok sibs =>
            cases hc : parseChainTokens rest <;> simp [isErr]
        · rw [dif_neg harr, dif_neg harr]
          by_cases hemp : t.isEmpty
          · simp [hemp, isErr]
          · rw [if_neg hemp, ← ihC rest (by omega)]
            cases hc : parseChainTokens rest <;> simp [isErr, hemp]
    · intro t h
      rw [parseArrayToken, specArrayTrigger]
      have hbound : 3 * sumLen (tokenize ',' (stripArrayChars t)) +
          (tokenize ',' (stripArrayChars t)).length + 3 ≤ N := by
        have := tokenizeAux_budget_lt ',' (stripArrayChars t) 0 []
        simp only [tokenize, List.length_nil] at *
        omega
      rw [← ihS (tokenize ',' (stripArrayChars t)) hbound]
      cases hs : parseSubTokens (tokenize ',' (stripArrayChars t)) with
      | error u => simp [isErr]
      | ok sibs =>
        by_cases hd : bracketDepth (stripArrayChars t) = 0 <;> simp [isErr, hd]
    · intro ts h
      cases ts with
      | nil =>
        rw [parseSubTokens, specAnyChainTrigger]
        rfl
      | cons t rest =>
        rw [parseSubTokens, specAnyChainTrigger]
        simp only [sumLen, List.length_cons] at h
        rw [← ihE t (by omega), ← ihS rest (by omega)]
        cases he : parseExpr t with
        | error u => simp [isErr]
        | ok branch =>
          cases hs : parseSubTokens rest <;> simp [isErr]

/-- C6: for every string input `s`, `parse` raises the single Invalid
Expression validation error — whose message is exactly
`"invalid relation expression: "` followed by `s` verbatim — if and only if
the splitter scan triggers: an identifier empty after trimming between
separators, or unbalanced brackets, checked at every recursive invocation of
the splitter (`specChainTrigger`).  The empty string is never split, so it
carries no empty identifier between separators and parses to the empty
expression.  On error the `Except` value carries no expression at all. -/
theorem claimC6_invalid_expression (s : String) :
    ((∃ msg, MoronRelationExpression.parse (.str s) = .error msg) ↔
      (s ≠ "" ∧ specChainTrigger s.data = true)) ∧
    (∀ msg, MoronRelationExpression.parse (.str s) = .error msg →
      msg = "invalid relation expression: " ++ s) := by
  have heq := (trigger_equiv (3 * s.data.length + 2)).1 s.data le_rfl
  constructor
  · constructor
    · rintro ⟨msg, hmsg⟩
      rw [MoronRelationExpression.parse] at hmsg
      by_cases h0 : s = ""
      · rw [if_pos h0] at hmsg
        exact absurd hmsg (by simp)
      · rw [if_neg h0] at hmsg
        refine ⟨h0, ?_⟩
        cases hp : parseExpr s.data with
        | ok f =>
          rw [hp] at hmsg
          exact absurd hmsg (by simp)
        | error u =>
          rw [hp] at heq
          simpa [isErr] using heq.symm
    · rintro ⟨h0, htrig⟩
      rw [MoronRelationExpression.parse, if_neg h0]
      rw [htrig] at heq
      cases hp : parseExpr s.data with
      | ok f =>
        rw [hp] at heq
        simp [isErr] at heq
      | error u =>
        exact ⟨"invalid relation expression: " ++ s, rfl⟩
  · intro msg hmsg
    rw [MoronRelationExpression.parse] at hmsg
    by_cases h0 : s = ""
    · rw [if_pos h0] at hmsg
      exact absurd hmsg (by simp)
    · rw [if_neg h0] at hmsg
      cases hp : parseExpr s.data with
      | ok f =>
        rw [hp] at hmsg
        exact absurd hmsg (by simp)
      | error u =>
        rw [hp] at hmsg
        injection hmsg with h1
        exact h1.symm

theorem claimC6_witness :
    ("a.[b,c" : String) ≠ "" ∧ specChainTrigger ("a.[b,c" : String).data = true :=
  (claimC6_invalid_expression "a.[b,c").1.mp
    ⟨"invalid relation expression: a.[b,c", by rw [parse_str_eval]; rfl⟩

/-- C7: every input that is not a non-empty string — the empty string,
`null`, `undefined`, and any other non-string value — parses to an
expression with zero root nodes, without error. -/
theorem claimC7_non_string_or_empty :
    (∀ v : JsValue, isNonEmptyStringInput v = false →
      MoronRelationExpression.parse v = .ok ⟨[]⟩) ∧
    MoronRelationExpression.parse (.str "") = .ok ⟨[]⟩ ∧
    MoronRelationExpression.parse .nullV = .ok ⟨[]⟩ ∧
    MoronRelationExpression.parse .undefV = .ok ⟨[]⟩ ∧
    MoronRelationExpression.parse .otherNonString = .ok ⟨[]⟩ := by
  refine ⟨?_, rfl, rfl, rfl, rfl⟩
  intro v hv
  cases v with
  | str s =>
    rw [isNonEmptyStringInput] at hv
    have hv2 : s = "" := by simpa using hv
    rw [MoronRelationExpression.parse, if_pos hv2]
  | nullV => rfl
  | undefV => rfl
  | otherNonString => rfl

theorem claimC7_witness :
    MoronRelationExpression.parse (.str "") = .ok ⟨[]⟩ ∧
    MoronRelationExpression.parse .nullV = .ok ⟨[]⟩ :=
  ⟨claimC7_non_string_or_empty.1 (.str "") rfl,
    claimC7_non_string_or_empty.1 .nullV rfl⟩

theorem tokenizeAux_ne_nil : ∀ (sep : Char) (cs : List Char) (depth : Int)
    (cur : List Char), depth + bracketDepth cs = 0 →
    tokenizeAux sep cs depth cur ≠ [] := by
  intro sep cs
  induction cs with
  | nil =>
    intro depth cur h
    rw [bracketDepth] at h
    rw [tokenizeAux, if_pos (by omega)]
    exact List.cons_ne_nil _ _
  | cons c cs ih =>
    intro depth cur h
    rw [bracketDepth] at h
    rw [tokenizeAux]
    by_cases h1 : c = '['
    · rw [if_pos h1]
      rw [if_pos h1] at h
      exact ih _ _ (by omega)
    · rw [if_neg h1]
      rw [if_neg h1] at h
      by_cases h2 : c = ']'
      · rw [if_pos h2]
        rw [if_pos h2] at h
        exact ih _ _ (by omega)
      · rw [if_neg h2]
        rw [if_neg h2] at h
        by_cases h3 : c = sep ∧ depth = 0
        · rw [if_pos h3]
          exact List.cons_ne_nil _ _
        · rw [if_neg h3]
          exact ih _ _ (by omega)

theorem tokenize_ne_nil (sep : Char) (s : List Char)
    (h : bracketDepth s = 0) : tokenize sep s ≠ [] :=
  tokenizeAux_ne_nil sep s 0 [] (by omega)

theorem parse_ok_ne_nil : ∀ N : Nat,
    (∀ s f, 3 * s.length + 2 ≤ N → parseExpr s = .ok f → f ≠ []) ∧
    (∀ ts f, 3 * sumLen ts + ts.length ≤ N →
      parseChainTokens ts = .ok f → ts ≠ [] → f ≠ []) ∧
    (∀ t f, 3 * (stripArrayChars t).length + 5 ≤ N →
      parseArrayToken t = .ok f → f ≠ []) ∧
    (∀ ts f, 3 * sumLen ts + ts.length + 3 ≤ N →
      parseSubTokens ts = .ok f → ts ≠ [] → f ≠ []) := by
  intro N
  induction N with
  | zero =>
    refine ⟨?_, ?_, ?_, ?_⟩
    · intro s f h; omega
    · intro ts f h hok hne
      cases ts with
      | nil => exact absurd rfl hne
      | cons t rest => simp [List.length_cons] at h
    · intro t f h; omega
    · intro ts f h; omega
  | succ N ih =>
    obtain ⟨ihE, ihC, ihA, ihS⟩ := ih
    refine ⟨?_, ?_, ?_, ?_⟩
    · intro s f h hok
      rw [parseExpr] at hok
      cases hc : parseChainTokens (tokenize '.' s) with
      | error u => rw [hc] at hok; exact absurd hok (by simp)
      | ok forest =>
        rw [hc] at hok
        have hok2 : (if bracketDepth s = 0 then Except.ok forest
            else Except.error ()) = Except.ok f := hok
        by_cases hd : bracketDepth s = 0
        · rw [if_pos hd] at hok2
          injection hok2 with h1
          subst h1
          have hbound : 3 * sumLen (tokenize '.' s) +
              (tokenize '.' s).length ≤ N := by
            have := tokenizeAux_budget_lt '.' s 0 []
            simp only [tokenize, List.length_nil] at *
            omega
          exact ihC (tokenize '.' s) forest hbound hc (tokenize_ne_nil '.' s hd)
        · rw [if_neg hd] at hok2
          exact absurd hok2 (by simp)
    · intro ts f h hok hne
      cases ts with
      | nil => exact absurd rfl hne
      | cons t rest =>
        rw [parseChainTokens] at hok
        simp only [sumLen, List.length_cons] at h
        by_cases harr : isArrayToken t = true
        · rw [dif_pos harr] at hok
          cases ha : parseArrayToken t with
          | error u => rw [ha] at hok; exact absurd hok (by simp)
          | ok sibs =>
            rw [ha] at hok
            cases hc : parseChainTokens rest with
            | error u => rw [hc] at hok; exact absurd hok (by simp)
            | ok more =>
              rw [hc] at hok
              injection hok with h1
              subst h1
              have h2 := isArrayToken_length t harr
              have h3 := stripArrayChars_length t
              have hsibs := ihA t sibs (by omega) ha
              intro hf
              exact hsibs (List.append_eq_nil.mp hf).1
        · rw [dif_neg harr] at hok
          by_cases hemp : t.isEmpty
          · rw [if_pos hemp] at hok
            exact absurd hok (by simp)
          · rw [if_neg hemp] at hok
            cases hc : parseChainTokens rest with
            | error u => rw [hc] at hok; exact absurd hok (by simp)
            | ok kids =>
              rw [hc] at hok
              injection hok with h1
              subst h1
              simp
    · intro t f h hok
      rw [parseArrayToken] at hok
      cases hs : parseSubTokens (tokenize ',' (stripArrayChars t)) with
      | error u => rw [hs] at hok; exact absurd hok (by simp)
      | ok sibs =>
        rw [hs] at hok
        have hok2 : (if bracketDepth (stripArrayChars t) = 0 then Except.ok sibs
            else Except.error ()) = Except.ok f := hok
        by_cases hd : bracketDepth (stripArrayChars t) = 0
        · rw [if_pos hd] at hok2
          injection hok2 with h1
          subst h1
          have hbound : 3 * sumLen (tokenize ',' (stripArrayChars t)) +
              (tokenize ',' (stripArrayChars t)).length + 3 ≤ N := by
            have := tokenizeAux_budget_lt ',' (stripArrayChars t) 0 []
            simp only [tokenize, List.length_nil] at *
            omega
          exact ihS (tokenize ',' (stripArrayChars t)) sibs hbound hs
            (tokenize_ne_nil ',' (stripArrayChars t) hd)
        · rw [if_neg hd] at hok2
          exact absurd hok2 (by simp)
    · intro ts f h hok hne
      cases ts with
      | nil => exact absurd rfl hne
      | cons t rest =>
        rw [parseSubTokens] at hok
        simp only [sumLen, List.length_cons] at h
        cases he : parseExpr t with
        | error u => rw [he] at hok; exact absurd hok (by simp)
        | ok branch =>
          rw [he] at hok
          cases hs : parseSubTokens rest with
          | error u => rw [hs] at hok; exact absurd hok (by simp)
          | ok more =>
            rw [hs] at hok
            injection hok with h1
            subst h1
            have hbr := ihE t branch (by omega) he
            intro hf
            exact hbr (List.append_eq_nil.mp hf).1

/-- C9: a successful parse of a non-empty string always yields an expression
with at least one root node; an empty node sequence can only come from empty
or non-string input. -/
theorem claimC9_nonempty (s : String) (e : MoronRelationExpression)
    (h0 : s ≠ "") (h : MoronRelationExpression.parse (.str s) = .ok e) :
    e.nodes ≠ [] := by
  rw [MoronRelationExpression.parse, if_neg h0] at h
  cases hp : parseExpr s.data with
  | error u => rw [hp] at h; exact absurd h (by simp)
  | ok f =>
    rw [hp] at h
    injection h with h1
    have hf := (parse_ok_ne_nil (3 * s.data.length + 2)).1 s.data f le_rfl hp
    rw [← h1]
    simpa using hf

theorem claimC9_witness :
    MoronRelationExpression.nodes ⟨[.mk "a" []]⟩ ≠ [] :=
  claimC9_nonempty "a" ⟨[.mk "a" []]⟩ (by decide)
    (by rw [parse_str_eval]; rfl)

theorem parseSubTokens_eq_mapM : ∀ ts : List (List Char),
    parseSubTokens ts = (ts.mapM parseExpr).map List.flatten := by
  intro ts
  induction ts with
  | nil =>
    rw [parseSubTokens, List.mapM_nil]
    rfl
  | cons t rest ih =>
    rw [parseSubTokens, List.mapM_cons]
    cases he : parseExpr t with
    | error u => rfl
    | ok branch =>
      rw [ih]
      cases hr : List.mapM parseExpr rest with
      | error u => rfl
      | ok l => rfl

/-- C8: an array token expands into parallel sibling branches at the current
position: each comma sub-token (split at bracket depth zero) is parsed as a
full dotted chain and all resulting root nodes are appended as siblings, in
order; in particular `a.[b,c]` yields one root `"a"` with children `"b"`,
`"c"` in that order. -/
theorem claimC8_array_token :
    (∀ (t : List Char) (rest : List (List Char)) sibs more,
      isArrayToken t = true →
      parseArrayToken t = .ok sibs → parseChainTokens rest = .ok more →
      parseChainTokens (t :: rest) = .ok (sibs ++ more)) ∧
    (∀ (t : List Char) (fs : List (List MoronRelationExpressionNode)),
      (tokenize ',' (stripArrayChars t)).mapM parseExpr = .ok fs →
      bracketDepth (stripArrayChars t) = 0 →
      parseArrayToken t = .ok fs.flatten) ∧
    MoronRelationExpression.parse (.str "a.[b,c]") =
      .ok ⟨[.mk "a" [.mk "b" [], .mk "c" []]]⟩ := by
  refine ⟨?_, ?_, ?_⟩
  · intro t rest sibs more harr ha hc
    rw [parseChainTokens, dif_pos harr, ha, hc]
  · intro t fs hmap hbal
    rw [parseArrayToken, parseSubTokens_eq_mapM, hmap]
    simp [Except.map, hbal]
  · rw [parse_str_eval]; rfl

theorem claimC8_witness :
    parseChainTokens [['[', 'b', ',', 'c', ']'], ['d']] =
      .ok [.mk "b" [], .mk "c" [], .mk "d" []] :=
  claimC8_array_token.1 ['[', 'b', ',', 'c', ']'] [['d']]
    [.mk "b" [], .mk "c" []] [.mk "d" []] rfl
    (by rw [← (parseFuel_spec 100).2.2.1 ['[', 'b', ',', 'c', ']'] (by decide)]
        rfl)
    (by rw [← (parseFuel_spec 100).2.1 [['d']] (by decide)]
        rfl)

/-- C10: a dotted segment that follows an array token attaches at the same
tree position as the array's branches: a successful parse of an array token
followed by more chain tokens is exactly the array's sibling branches
followed, at the same level, by whatever the remaining tokens produce; in
particular `a.[b,c].d` yields one root `"a"` with the three children `"b"`,
`"c"`, `"d"` — `"d"` a sibling of `"b"` and `"c"`, not a child of them. -/
theorem claimC10_chain_after_array :
    (∀ (t : List Char) (rest : List (List Char))
      (f : List MoronRelationExpressionNode),
      isArrayToken t = true → parseChainTokens (t :: rest) = .ok f →
      ∃ sibs more, parseArrayToken t = .ok sibs ∧
        parseChainTokens rest = .ok more ∧ f = sibs ++ more) ∧
    MoronRelationExpression.parse (.str "a.[b,c].d") =
      .ok ⟨[.mk "a" [.mk "b" [], .mk "c" [], .mk "d" []]]⟩ := by
  refine ⟨?_, ?_⟩
  · intro t rest f harr h
    rw [parseChainTokens, dif_pos harr] at h
    cases ha : parseArrayToken t with
    | error u => rw [ha] at h; exact absurd h (by simp)
    | ok sibs =>
      rw [ha] at h
      cases hc : parseChainTokens rest with
      | error u => rw [hc] at h; exact absurd h (by simp)
      | ok more =>
        rw [hc] at h
        injection h with h1
        exact ⟨sibs, more, rfl, rfl, h1.symm⟩

  · rw [parse_str_eval]; rfl

theorem claimC10_witness :
    ([MoronRelationExpressionNode.mk "b" [], .mk "c" [], .mk "d" []] :
      List MoronRelationExpressionNode) =
      [MoronRelationExpressionNode.mk "b" [], .mk "c" []] ++
        [MoronRelationExpressionNode.mk "d" []] := by
  obtain ⟨sibs, more, ha, hc, hf⟩ :=
    claimC10_chain_after_array.1 ['[', 'b', ',', 'c', ']'] [['d']]
      [.mk "b" [], .mk "c" [], .mk "d" []] rfl
      (by rw [← (parseFuel_spec 100).2.1
            [['[', 'b', ',', 'c', ']'], ['d']] (by decide)]
          rfl)
  have ha2 : parseArrayToken ['[', 'b', ',', 'c', ']'] =
      .ok [.mk "b" [], .mk "c" []] := by
    rw [← (parseFuel_spec 100).2.2.1 ['[', 'b', ',', 'c', ']'] (by decide)]
    rfl
  have hc2 : parseChainTokens [['d']] = .ok [.mk "d" []] := by
    rw [← (parseFuel_spec 100).2.1 [['d']] (by decide)]
    rfl
  rw [ha2] at ha
  injection ha with h1
  rw [hc2] at hc
  injection hc with h2
  rw [hf, ← h1, ← h2]
